import Mathlib

/-!
Verification development for the MTC extraction engine
(`ALL_IN_1_UI.py`): a shallow embedding of the label-to-value
resolution heuristics (docx text-fragment path and pdf layout-element
path), together with theorems about the locator, resolver and
multi-value hardness components.

Modelling conventions:
* Python strings are `List Char`; `a in b` is `containsSub`,
  `str.strip()` is `pyStrip`, `str.lower()` is `lowerStr` (the texts in
  play are ASCII, where `Char.toLower` agrees with Python `lower`).
* Bounding-box coordinates (floats in pdfminer) are modelled as exact
  rationals; the source only compares and subtracts them.
* The concrete regular expressions of the source are modelled by
  dedicated scanning functions whose doc comments spell out the
  leftmost-match reasoning.
* File-system access and exceptions are modelled by the `DocResult`
  outcome type: `missing` (absent path), `readError` (the caught
  exception of the `try` block), `ok` (parsed content).
-/

namespace MTCSpec

/-! ## Python string primitives -/

/-- Python substring test `needle in hay` (contiguous substring). -/
def containsSub (needle : List Char) : List Char → Bool
  | [] => needle.isEmpty
  | c :: rest => List.isPrefixOf needle (c :: rest) || containsSub needle rest

/-- Python `str.lower()` on ASCII text. -/
def lowerStr (s : List Char) : List Char := s.map Char.toLower

/-- Python `\s` / `str.strip()` whitespace (ASCII range). -/
def isPySpace (c : Char) : Bool :=
  c == ' ' || c == '\t' || c == '\n' || c == '\r' || c == '\x0b' || c == '\x0c'

/-- Python `str.strip()`. -/
def pyStrip (s : List Char) : List Char :=
  ((s.dropWhile isPySpace).reverse.dropWhile isPySpace).reverse

/-- Python `any(c.isdigit() for c in s)` (ASCII digits). -/
def hasDigit (s : List Char) : Bool := s.any Char.isDigit

/-- Character class `[\d\.]`. -/
def isDigDot (c : Char) : Bool := c.isDigit || c == '.'

/-- Character class `[\s\.\,]` of the trailing-trim regex. -/
def isTrimChar (c : Char) : Bool := isPySpace c || c == '.' || c == ','

/-- Model of `re.sub(r'[\s\.\,]+$', '', s)`: strip the trailing run of
whitespace, periods and commas. -/
def rstripTrim (s : List Char) : List Char := (s.reverse.dropWhile isTrimChar).reverse

/-! ## Regular-expression models -/

/-- Model of `re.search(r"([\d\.]+)", s)`: the leftmost maximal run of
digit-or-period characters (group 1), if any. -/
def firstNumRun : List Char → Option (List Char)
  | [] => none
  | c :: cs => if isDigDot c then some (c :: cs.takeWhile isDigDot) else firstNumRun cs

/-- Model of `re.search(r"([\d\.]+)\s*HBW", s)`.  A match at a start position
takes the maximal `[\d\.]` run there (a shorter run would have to be
followed by `HBW` beginning at a digit-or-period character, which is
impossible), then the maximal whitespace run (shrinking it would put
`H` on a whitespace character), then the literal `HBW`.  All start
positions inside one run share the tail after the run, so the first
position whose check succeeds is always the start of its run, and the
leftmost-match scan may simply advance one character at a time. -/
def findNumHBW : List Char → Option (List Char)
  | [] => none
  | c :: cs =>
    if isDigDot c then
      if List.isPrefixOf ('H' :: 'B' :: 'W' :: []) ((cs.dropWhile isDigDot).dropWhile isPySpace) then
        some (c :: cs.takeWhile isDigDot)
      else findNumHBW cs
    else findNumHBW cs

/-- One `\d+\.?\d*%` at the start of `s` (consumed text and remainder).
Backtracking is determinate here: after the maximal leading digit run,
either `%` follows directly, or `.`, a maximal digit run and `%`
follow; any shorter choice puts `%` on a digit or `.` character. -/
def numPercent (s : List Char) : Option (List Char × List Char) :=
  let d1 := s.takeWhile Char.isDigit
  if d1.isEmpty then none
  else
    match s.dropWhile Char.isDigit with
    | '%' :: rest => some (d1 ++ '%' :: [], rest)
    | '.' :: r2 =>
      (match r2.dropWhile Char.isDigit with
       | '%' :: rest => some (d1 ++ '.' :: (r2.takeWhile Char.isDigit ++ '%' :: []), rest)
       | _ => none)
    | _ => none

/-- Pattern `\d+\.?\d*%\s*/\s*\d+\.?\d*%` anchored at the start of `s`
(the matched text).  The `\s*` runs are maximal since `/` and the
digits that follow are not whitespace. -/
def ratioAt (s : List Char) : Option (List Char) :=
  match numPercent s with
  | none => none
  | some (c1, r) =>
    match r.dropWhile isPySpace with
    | '/' :: r3 =>
      (match numPercent (r3.dropWhile isPySpace) with
       | some (c2, _) => some (c1 ++ r.takeWhile isPySpace ++ '/' :: (r3.takeWhile isPySpace ++ c2))
       | none => none)
    | _ => none

/-- Model of `re.search(r"(\d+\.?\d*%\s*/\s*\d+\.?\d*%)", s)`: leftmost match. -/
def ratioSearch : List Char → Option (List Char)
  | [] => none
  | c :: rest =>
    match ratioAt (c :: rest) with
    | some m => some m
    | none => ratioSearch rest

/-! ## Sequential (docx) path: `extract_micro_data` -/

/-- Test `label.lower() in chunk.lower()` (lines 91/94 of the source). -/
def matchCI (label chunk : List Char) : Bool := containsSub (lowerStr label) (lowerStr chunk)

/-- The `first`-preference loop (lines 93-95): scan with `break`. -/
def firstIdxAux (label : List Char) : List (List Char) → Int → Int
  | [], _ => -1
  | c :: cs, i => if matchCI label c then i else firstIdxAux label cs (i + 1)

def firstIdx (label : List Char) (chunks : List (List Char)) : Int := firstIdxAux label chunks 0

/-- The `last`-preference loop (lines 90-91): scan to the end keeping
the last matching index. -/
def lastIdxAux (label : List Char) : List (List Char) → Int → Int → Int
  | [], _, acc => acc
  | c :: cs, i, acc => lastIdxAux label cs (i + 1) (if matchCI label c then i else acc)

def lastIdx (label : List Char) (chunks : List (List Char)) : Int := lastIdxAux label chunks 0 (-1)

def pctStr : List Char := '%' :: []

/-- The "Graphite Fraction" heuristic (lines 103-106): per fragment, first
the contains-`%`-and-digit rule, else the digit-fragment followed by a
lone `"%"` fragment rule; first satisfying fragment wins. -/
def graphiteFractionHeur : List (List Char) → Option (List Char)
  | [] => none
  | n :: rest =>
    if containsSub pctStr n && hasDigit n then some n
    else if hasDigit n && rest.head? == some pctStr then some (n ++ pctStr)
    else graphiteFractionHeur rest

def lparStr : List Char := '(' :: []

def rparStr : List Char := ')' :: []

/-- The "Graphite Form" heuristic (lines 108-109). -/
def parenthesizedHeur : List (List Char) → Option (List Char)
  | [] => none
  | n :: rest =>
    if containsSub lparStr n && containsSub rparStr n then some n
    else parenthesizedHeur rest

/-- The "Ferrite / Pearlite Ratio" heuristic (lines 111-113): join the
first three window fragments and search the ratio pattern. -/
def ratioHeur (w : List (List Char)) : Option (List Char) := ratioSearch (w.take 3).flatten

/-- The "Graphite Nodularity" heuristic (lines 115-116). -/
def nodularityHeur : List (List Char) → Option (List Char)
  | [] => none
  | n :: rest =>
    if containsSub pctStr n && n.length > 1 then some n
    else nodularityHeur rest

/-- Python `s.endswith('%')`. -/
def endsPct (s : List Char) : Bool := s.getLast? == some '%'

/-- Default heuristic (lines 118-120): first digit-bearing fragment not
ending in `%`, with the trailing punctuation run stripped. -/
def numericTrimHeur : List (List Char) → Option (List Char)
  | [] => none
  | n :: rest =>
    if hasDigit n && !endsPct n then some (rstripTrim n)
    else numericTrimHeur rest

inductive Pref where
  | first
  | last
deriving DecidableEq

inductive MicroLabel where
  | nodularity
  | particles
  | size
  | form
  | fraction
  | ratioFP
deriving DecidableEq, BEq

def MicroLabel.text : MicroLabel → List Char
  | .nodularity => "Graphite Nodularity".toList
  | .particles => "Nodular Particles per mm²".toList
  | .size => "Graphite Size".toList
  | .form => "Graphite Form".toList
  | .fraction => "Graphite Fraction".toList
  | .ratioFP => "Ferrite / Pearlite Ratio".toList

/-- The `target_labels` preference map (lines 79-83). -/
def MicroLabel.pref : MicroLabel → Pref
  | .ratioFP => .first
  | _ => .last

/-- The per-label heuristic dispatch (lines 102-120). -/
def applyHeur : MicroLabel → List (List Char) → Option (List Char)
  | .fraction, w => graphiteFractionHeur w
  | .form, w => parenthesizedHeur w
  | .ratioFP, w => ratioHeur w
  | .nodularity, w => nodularityHeur w
  | .particles, w => numericTrimHeur w
  | .size, w => numericTrimHeur w

def locateIdx : Pref → List Char → List (List Char) → Int
  | .first, label, chunks => firstIdx label chunks
  | .last, label, chunks => lastIdx label chunks

/-- Slice `chunks[idx+1 : idx+6]` (line 98). -/
def window (chunks : List (List Char)) (idx : Nat) : List (List Char) :=
  (chunks.drop (idx + 1)).take 5

/-- One pass of the per-label body (lines 85-123): locate, take the
window, run the heuristic; the final `if found_value:` is Python
truthiness, so an empty string is also dropped. -/
def resolveMicro (chunks : List (List Char)) (lbl : MicroLabel) : Option (List Char) :=
  let idx := locateIdx lbl.pref lbl.text chunks
  if idx = -1 then none
  else
    match applyHeur lbl (window chunks idx.toNat) with
    | some v => if v.isEmpty then none else some v
    | none => none

/-- Outcome of reading a source document: the path is empty/absent, the
`try` block raised (caught and logged in the source), or content was
parsed. -/
inductive DocResult (α : Type) where
  | missing
  | readError (msg : List Char)
  | ok (content : α)

def microLabelOrder : List MicroLabel :=
  .nodularity :: .particles :: .size :: .form :: .fraction :: .ratioFP :: []

/-- Function `extract_micro_data` (lines 59-125).  The XML traversal that yields
the ordered, stripped, non-empty text chunks is abstracted into the
`ok` payload; `results` is the insertion-ordered mapping. -/
def extract_micro_data (doc : DocResult (List (List Char))) : List (MicroLabel × List Char) :=
  match doc with
  | .missing => []
  | .readError _ => []
  | .ok chunks =>
    microLabelOrder.foldl
      (fun res lbl =>
        match resolveMicro chunks lbl with
        | some v => res ++ (lbl, v) :: []
        | none => res)
      []

/-! ## Spatial (pdf) path -/

structure Box where
  x0 : ℚ
  y0 : ℚ
  x1 : ℚ
  y1 : ℚ
deriving DecidableEq

structure Element where
  text : List Char
  box : Box
deriving DecidableEq

/-- Label lookup of `find_value_neighbor` (lines 129-133): the first
element whose raw text contains `label_text` (case-sensitive). -/
def findLabelBBox (label_text : List Char) : List Element → Option Box
  | [] => none
  | e :: rest => if containsSub label_text e.text then some e.box else findLabelBBox label_text rest

/-- The scanning loop of `find_value_neighbor` (lines 139-148), with
the accumulator `(closest_distance, best_text)` made explicit. -/
def valueGo (label_text required_keyword : List Char) (lb : Box) :
    List Element → ℚ → Option (List Char) → Option (List Char)
  | [], _, best => best
  | e :: rest, closest, best =>
    if containsSub label_text (pyStrip e.text) then
      valueGo label_text required_keyword lb rest closest best
    else
      if e.box.y0 < lb.y1 + 2 ∧ e.box.y1 > lb.y0 - 2 ∧ e.box.x0 ≥ lb.x0 - 5 ∧
          containsSub required_keyword (pyStrip e.text) = true then
        (if e.box.x0 - lb.x1 < closest then
          valueGo label_text required_keyword lb rest (e.box.x0 - lb.x1) (some (pyStrip e.text))
        else valueGo label_text required_keyword lb rest closest best)
      else valueGo label_text required_keyword lb rest closest best

/-- Lines 135-153 of `find_value_neighbor`, given the located label
box: run the scan from the 9999 sentinel, then extract the leading
numeric run from the winner (`if best_text:` is Python truthiness). -/
def findValueFrom (elements : List Element) (label_text required_keyword : List Char)
    (lb : Box) : Option (List Char) :=
  match valueGo label_text required_keyword lb elements 9999 none with
  | some best_text =>
    if best_text.isEmpty then none
    else
      (match firstNumRun best_text with
       | some g => some g
       | none => some best_text)
  | none => none

/-- Function `find_value_neighbor` (lines 128-153). -/
def find_value_neighbor (elements : List Element) (label_text required_keyword : List Char) :
    Option (List Char) :=
  match findLabelBBox label_text elements with
  | none => none
  | some lb => findValueFrom elements label_text required_keyword lb

/-- Function `extract_pdf_elements` (lines 155-164): missing path or a raised
parse error yield the empty element list; otherwise the text
containers of page 0. -/
def extract_pdf_elements (doc : DocResult (List Element)) : List Element :=
  match doc with
  | .missing => []
  | .readError _ => []
  | .ok es => es

def sTensile : List Char := "Tensile Strength".toList

def sYield : List Char := "Yield Strength".toList

def sElong : List Char := "Elongation".toList

def sMpa : List Char := "Mpa".toList

/-- Function `process_tensile` (lines 167-181). -/
def process_tensile (doc : DocResult (List Element)) :
    Option (List Char) × Option (List Char) × Option (List Char) :=
  match doc with
  | .missing => (none, none, none)
  | _ =>
    let elements := extract_pdf_elements doc
    if elements.isEmpty then (none, none, none)
    else
      (find_value_neighbor elements sTensile sMpa,
       find_value_neighbor elements sYield sMpa,
       find_value_neighbor elements sElong pctStr)

def hbwStr : List Char := 'H' :: 'B' :: 'W' :: []

def hardnessStr : List Char := "Hardness".toList

/-- The neighbor loop of `process_hardness` (lines 204-215), with the
accumulator `(closest, found)` made explicit. -/
def hardGo (lb : Box) : List Element → ℚ → Option (List Char) → Option (List Char)
  | [], _, found => found
  | e :: rest, closest, found =>
    if containsSub hbwStr (pyStrip e.text) = false then hardGo lb rest closest found
    else
      if e.box.y0 < lb.y1 + 5 ∧ e.box.y1 > lb.y0 - 5 ∧ e.box.x0 > lb.x0 then
        (if e.box.x0 - lb.x1 < closest then
          (match findNumHBW (pyStrip e.text) with
           | some nm => hardGo lb rest (e.box.x0 - lb.x1) (some nm)
           | none => hardGo lb rest closest found)
        else hardGo lb rest closest found)
      else hardGo lb rest closest found

def hardnessNeighbor (elements : List Element) (lb : Box) : Option (List Char) :=
  hardGo lb elements 9999 none

/-- Per-label resolution of `process_hardness` (lines 196-215): the
inline `([\d\.]+)\s*HBW` pattern on the raw label text first, else the
neighbor search. -/
def resolveHardLabel (elements : List Element) (lbl : Element) : Option (List Char) :=
  match findNumHBW lbl.text with
  | some g => some g
  | none => hardnessNeighbor elements lbl.box

/-- Stable insertion step for the descending-`y1` sort. -/
def insertByY1 (a : Element) : List Element → List Element
  | [] => a :: []
  | b :: l => if a.box.y1 ≥ b.box.y1 then a :: b :: l else b :: insertByY1 a l

/-- Call `hardness_labels.sort(key=lambda x: x.bbox[3], reverse=True)`
(line 192).  Python's sort is stable; a stable insertion sort has the
same observable behaviour. -/
def sortByY1Desc : List Element → List Element
  | [] => []
  | a :: l => insertByY1 a (sortByY1Desc l)

def hardnessLabels (elements : List Element) : List Element :=
  sortByY1Desc (elements.filter (fun e => containsSub hardnessStr e.text))

/-- The collection loop of `process_hardness` (lines 194-219):
`if found:` is Python truthiness, append, `break` at two results. -/
def hardLoop (elements : List Element) : List Element → List (List Char) → List (List Char)
  | [], results => results
  | lbl :: rest, results =>
    match resolveHardLabel elements lbl with
    | some v =>
      if v.isEmpty then hardLoop elements rest results
      else
        if (results ++ v :: []).length ≥ 2 then results ++ v :: []
        else hardLoop elements rest (results ++ v :: [])
    | none => hardLoop elements rest results

def processHardnessElems (elements : List Element) : List (List Char) :=
  hardLoop elements (hardnessLabels elements) []

/-- Function `process_hardness` (lines 184-221). -/
def process_hardness (doc : DocResult (List Element)) : List (List Char) :=
  match doc with
  | .missing => []
  | _ =>
    let elements := extract_pdf_elements doc
    if elements.isEmpty then [] else processHardnessElems elements

/-! ## Declarative selection (specification side)

`selectBestC qual f c l` is the first element of `l`, among those
satisfying `qual` with `f`-value strictly below the threshold `c`,
that attains the minimal `f`-value; it is the declarative counterpart
of the one-pass `closest/best` scans above. -/

def selectBestC {α : Type} (qual : α → Bool) (f : α → ℚ) (c : ℚ) : List α → Option α
  | [] => none
  | e :: rest =>
    match selectBestC qual f c rest with
    | none => if qual e ∧ f e < c then some e else none
    | some b => if qual e ∧ f e < c ∧ f e ≤ f b then some e else some b

/-- Qualification predicate of the single-value spatial scan
(lines 142-144). -/
def qualValue (label_text required_keyword : List Char) (lb : Box) (e : Element) : Bool :=
  !containsSub label_text (pyStrip e.text) &&
    decide (e.box.y0 < lb.y1 + 2) && decide (e.box.y1 > lb.y0 - 2) &&
    decide (e.box.x0 ≥ lb.x0 - 5) && containsSub required_keyword (pyStrip e.text)

/-- Qualification predicate of the hardness neighbor scan
(lines 207-213); the inline-pattern re-validation participates in the
minimisation. -/
def qualHard (lb : Box) (e : Element) : Bool :=
  containsSub hbwStr (pyStrip e.text) &&
    decide (e.box.y0 < lb.y1 + 5) && decide (e.box.y1 > lb.y0 - 5) &&
    decide (e.box.x0 > lb.x0) && (findNumHBW (pyStrip e.text)).isSome

def offsetFrom (lb : Box) (e : Element) : ℚ := e.box.x0 - lb.x1

/-- The hardness neighbor search as claim C2 words it: the §4.6
structure with tolerance 5 — exclusion of elements containing the
label text, left edge `ex0 ≥ lx0 - 5`, keyword containment, minimal
horizontal offset — and the winner re-validated against the inline
unit-marker pattern. -/
def claimHardQual (lb : Box) (labelTxt : List Char) (e : Element) : Bool :=
  !containsSub labelTxt (pyStrip e.text) &&
    decide (e.box.y0 < lb.y1 + 5) && decide (e.box.y1 > lb.y0 - 5) &&
    decide (e.box.x0 ≥ lb.x0 - 5) && containsSub hbwStr (pyStrip e.text)

def claimHardnessNeighbor (elements : List Element) (lb : Box) (labelTxt : List Char) :
    Option (List Char) :=
  match selectBestC (claimHardQual lb labelTxt) (offsetFrom lb) 9999 elements with
  | some e => findNumHBW (pyStrip e.text)
  | none => none

/-! ## Properties of the declarative selection -/

theorem selectBestC_tighten {α : Type} (qual : α → Bool) (f : α → ℚ) {c c' : ℚ}
    (hcc : c' ≤ c) (l : List α) :
    selectBestC qual f c' l =
      match selectBestC qual f c l with
      | some b => if f b < c' then some b else none
      | none => none := by
  induction l with
  | nil => simp [selectBestC]
  | cons e rest ih =>
    rw [selectBestC, selectBestC, ih]
    rcases h : selectBestC qual f c rest with _ | b
    · by_cases hq : qual e = true
      · by_cases h1 : f e < c'
        · have h2 : f e < c := lt_of_lt_of_le h1 hcc
          simp [hq, h1, h2]
        · by_cases h2 : f e < c
          · simp [hq, h1, h2]
          · simp [hq, h1, h2]
      · simp [hq]
    · by_cases hb : f b < c'
      · by_cases hq : qual e = true
        · by_cases h1 : f e < c'
          · have h2 : f e < c := lt_of_lt_of_le h1 hcc
            by_cases h3 : f e ≤ f b
            · simp [hq, h1, h2, h3, hb]
            · simp [hq, h1, h2, h3, hb]
          · have h3 : ¬ f e ≤ f b := fun hle => h1 (lt_of_le_of_lt hle hb)
            by_cases h2 : f e < c
            · simp [hq, h1, h2, h3, hb]
            · simp [hq, h1, h2, hb]
        · simp [hq, hb]
      · by_cases hq : qual e = true
        · by_cases h1 : f e < c'
          · have h2 : f e < c := lt_of_lt_of_le h1 hcc
            have h3 : f e ≤ f b := le_of_lt (lt_of_lt_of_le h1 (not_lt.mp hb))
            simp [hq, h1, h2, h3, hb]
          · by_cases h2 : f e < c
            · by_cases h3 : f e ≤ f b
              · simp [hq, h1, h2, h3, hb]
              · simp [hq, h1, h2, h3, hb]
            · simp [hq, h1, h2, hb]
        · simp [hq, hb]

theorem selectBestC_cons_none {α : Type} {qual : α → Bool} {f : α → ℚ} {c : ℚ}
    {e : α} {rest : List α} (hr : selectBestC qual f c rest = none) :
    selectBestC qual f c (e :: rest) = if qual e = true ∧ f e < c then some e else none := by
  rw [selectBestC, hr]

theorem selectBestC_cons_some {α : Type} {qual : α → Bool} {f : α → ℚ} {c : ℚ}
    {e b : α} {rest : List α} (hr : selectBestC qual f c rest = some b) :
    selectBestC qual f c (e :: rest) =
      if qual e = true ∧ f e < c ∧ f e ≤ f b then some e else some b := by
  rw [selectBestC, hr]

theorem selectBestC_none_forall {α : Type} {qual : α → Bool} {f : α → ℚ} {c : ℚ}
    {l : List α} (h : selectBestC qual f c l = none) :
    ∀ x ∈ l, ¬ (qual x = true ∧ f x < c) := by
  induction l with
  | nil => simp
  | cons e rest ih =>
    rcases hr : selectBestC qual f c rest with _ | b'
    · rw [selectBestC_cons_none hr] at h
      intro x hx
      rcases List.mem_cons.mp hx with hx | hx
      · subst hx
        intro hc
        rw [if_pos hc] at h
        exact Option.noConfusion h
      · exact ih hr x hx
    · rw [selectBestC_cons_some hr] at h
      by_cases hc : qual e = true ∧ f e < c ∧ f e ≤ f b'
      · rw [if_pos hc] at h
        exact Option.noConfusion h
      · rw [if_neg hc] at h
        exact Option.noConfusion h

theorem selectBestC_mem {α : Type} {qual : α → Bool} {f : α → ℚ} {c : ℚ}
    {l : List α} {b : α} (h : selectBestC qual f c l = some b) :
    b ∈ l ∧ qual b = true ∧ f b < c ∧ ∀ x ∈ l, qual x = true → f b ≤ f x := by
  induction l generalizing b with
  | nil => simp [selectBestC] at h
  | cons e rest ih =>
    rcases hr : selectBestC qual f c rest with _ | b'
    · rw [selectBestC_cons_none hr] at h
      by_cases hc : qual e = true ∧ f e < c
      · rw [if_pos hc] at h
        cases h
        refine ⟨List.mem_cons_self .., hc.1, hc.2, ?_⟩
        intro x hx hqx
        rcases List.mem_cons.mp hx with hx | hx
        · exact hx ▸ le_refl _
        · have hfx : ¬ f x < c := fun hlt => selectBestC_none_forall hr x hx ⟨hqx, hlt⟩
          exact le_of_lt (lt_of_lt_of_le hc.2 (le_of_not_lt hfx))
      · rw [if_neg hc] at h
        exact Option.noConfusion h
    · obtain ⟨hmem, hq', hf', hmin⟩ := ih hr
      rw [selectBestC_cons_some hr] at h
      by_cases hc : qual e = true ∧ f e < c ∧ f e ≤ f b'
      · rw [if_pos hc] at h
        cases h
        refine ⟨List.mem_cons_self .., hc.1, hc.2.1, ?_⟩
        intro x hx hqx
        rcases List.mem_cons.mp hx with hx | hx
        · exact hx ▸ le_refl _
        · exact le_trans hc.2.2 (hmin x hx hqx)
      · rw [if_neg hc] at h
        cases h
        refine ⟨List.mem_cons_of_mem _ hmem, hq', hf', ?_⟩
        intro x hx hqx
        rcases List.mem_cons.mp hx with hx | hx
        · subst hx
          by_cases h1 : f x < c
          · by_cases h2 : f x ≤ f b
            · exact absurd ⟨hqx, h1, h2⟩ hc
            · exact le_of_lt (lt_of_not_le h2)
          · exact le_of_lt (lt_of_lt_of_le hf' (le_of_not_lt h1))
        · exact hmin x hx hqx

theorem selectBestC_none_iff {α : Type} {qual : α → Bool} {f : α → ℚ} {c : ℚ}
    {l : List α} :
    selectBestC qual f c l = none ↔ ∀ x ∈ l, ¬ (qual x = true ∧ f x < c) := by
  induction l with
  | nil => simp [selectBestC]
  | cons e rest ih =>
    rcases hr : selectBestC qual f c rest with _ | b'
    · rw [selectBestC_cons_none hr]
      constructor
      · intro h x hx
        rcases List.mem_cons.mp hx with hx | hx
        · subst hx
          intro hc
          rw [if_pos hc] at h
          exact Option.noConfusion h
        · exact (ih.mp hr) x hx
      · intro h
        rw [if_neg (h e (List.mem_cons_self ..))]
    · rw [selectBestC_cons_some hr]
      constructor
      · intro h
        by_cases hc : qual e = true ∧ f e < c ∧ f e ≤ f b'
        · rw [if_pos hc] at h
          exact Option.noConfusion h
        · rw [if_neg hc] at h
          exact Option.noConfusion h
      · intro h
        obtain ⟨hmem, hq', hf', _⟩ := selectBestC_mem hr
        exact absurd ⟨hq', hf'⟩ (h b' (List.mem_cons_of_mem _ hmem))

theorem selectBestC_first {α : Type} {qual : α → Bool} {f : α → ℚ} {c : ℚ}
    {pre post : List α} {b : α}
    (hq : qual b = true) (hf : f b < c)
    (hpre : ∀ x ∈ pre, qual x = true → f b < f x)
    (hall : ∀ x ∈ post, qual x = true → f b ≤ f x) :
    selectBestC qual f c (pre ++ b :: post) = some b := by
  induction pre with
  | nil =>
    rcases hr : selectBestC qual f c post with _ | b'
    · rw [List.nil_append, selectBestC_cons_none hr, if_pos ⟨hq, hf⟩]
    · obtain ⟨hmem, hq', _, _⟩ := selectBestC_mem hr
      rw [List.nil_append, selectBestC_cons_some hr, if_pos ⟨hq, hf, hall b' hmem hq'⟩]
  | cons a pre ih =>
    have ih' := ih (fun x hx => hpre x (List.mem_cons_of_mem _ hx))
    rw [List.cons_append, selectBestC_cons_some ih']
    by_cases hqa : qual a = true
    · have hna : ¬ f a ≤ f b := not_le.mpr (hpre a (List.mem_cons_self ..) hqa)
      rw [if_neg (fun hcon => hna hcon.2.2)]
    · rw [if_neg (fun hcon => hqa hcon.1)]


theorem selectBestC_cons_skip {α : Type} {qual : α → Bool} {f : α → ℚ} {c : ℚ}
    {e : α} {rest : List α} (hq : ¬ (qual e = true ∧ f e < c)) :
    selectBestC qual f c (e :: rest) = selectBestC qual f c rest := by
  rcases hr : selectBestC qual f c rest with _ | b'
  · rw [selectBestC_cons_none hr, if_neg hq]
  · rw [selectBestC_cons_some hr, if_neg (fun hcon => hq ⟨hcon.1, hcon.2.1⟩)]

theorem selectBestC_cons_update {α : Type} {qual : α → Bool} {f : α → ℚ} {c : ℚ}
    {e : α} {rest : List α} (hq : qual e = true) (hd : f e < c) :
    selectBestC qual f c (e :: rest) =
      match selectBestC qual f (f e) rest with
      | some b => some b
      | none => some e := by
  rcases hr : selectBestC qual f c rest with _ | b'
  · rw [selectBestC_cons_none hr, if_pos ⟨hq, hd⟩,
      selectBestC_tighten qual f (le_of_lt hd) rest, hr]
  · rw [selectBestC_cons_some hr, selectBestC_tighten qual f (le_of_lt hd) rest, hr]
    by_cases hb : f b' < f e
    · rw [if_neg (fun hcon => absurd hb (not_lt.mpr hcon.2.2))]
      simp [hb]
    · rw [if_pos ⟨hq, hd, le_of_not_lt hb⟩]
      simp [hb]

theorem qualValue_eq_true_iff {label_text required_keyword : List Char} {lb : Box}
    {e : Element} :
    qualValue label_text required_keyword lb e = true ↔
      containsSub label_text (pyStrip e.text) = false ∧
      (e.box.y0 < lb.y1 + 2 ∧ e.box.y1 > lb.y0 - 2 ∧ e.box.x0 ≥ lb.x0 - 5 ∧
        containsSub required_keyword (pyStrip e.text) = true) := by
  simp [qualValue, and_assoc]

theorem qualHard_eq_true_iff {lb : Box} {e : Element} :
    qualHard lb e = true ↔
      containsSub hbwStr (pyStrip e.text) = true ∧
      (e.box.y0 < lb.y1 + 5 ∧ e.box.y1 > lb.y0 - 5 ∧ e.box.x0 > lb.x0) ∧
      (findNumHBW (pyStrip e.text)).isSome = true := by
  simp [qualHard, and_assoc]

theorem valueGo_eq (label_text required_keyword : List Char) (lb : Box) :
    ∀ (l : List Element) (c : ℚ) (b : Option (List Char)),
      valueGo label_text required_keyword lb l c b =
        match selectBestC (qualValue label_text required_keyword lb) (offsetFrom lb) c l with
        | some e => some (pyStrip e.text)
        | none => b := by
  intro l
  induction l with
  | nil => intro c b; rfl
  | cons e rest ih =>
    intro c b
    rw [valueGo]
    by_cases hskip : containsSub label_text (pyStrip e.text) = true
    · rw [if_pos hskip, ih,
        selectBestC_cons_skip (fun hcon => by
          have := (qualValue_eq_true_iff.mp hcon.1).1
          rw [hskip] at this
          exact Bool.noConfusion this)]
    · have hskip' : containsSub label_text (pyStrip e.text) = false :=
        Bool.eq_false_iff.mpr hskip
      rw [if_neg hskip]
      by_cases hgeo : e.box.y0 < lb.y1 + 2 ∧ e.box.y1 > lb.y0 - 2 ∧ e.box.x0 ≥ lb.x0 - 5 ∧
          containsSub required_keyword (pyStrip e.text) = true
      · rw [if_pos hgeo]
        have hq : qualValue label_text required_keyword lb e = true :=
          qualValue_eq_true_iff.mpr ⟨hskip', hgeo⟩
        by_cases hdist : e.box.x0 - lb.x1 < c
        · rw [if_pos hdist, selectBestC_cons_update hq hdist]
          refine Eq.trans (ih (offsetFrom lb e) (some (pyStrip e.text))) ?_
          rcases hfe : selectBestC (qualValue label_text required_keyword lb) (offsetFrom lb)
              (offsetFrom lb e) rest with _ | bb <;> rfl
        · have hsk : selectBestC (qualValue label_text required_keyword lb) (offsetFrom lb) c
              (e :: rest) =
              selectBestC (qualValue label_text required_keyword lb) (offsetFrom lb) c rest :=
            selectBestC_cons_skip (fun hcon => hdist hcon.2)
          rw [if_neg hdist, ih, hsk]
      · rw [if_neg hgeo, ih,
          selectBestC_cons_skip (fun hcon => hgeo (qualValue_eq_true_iff.mp hcon.1).2)]

theorem hardGo_eq (lb : Box) :
    ∀ (l : List Element) (c : ℚ) (b : Option (List Char)),
      hardGo lb l c b =
        match selectBestC (qualHard lb) (offsetFrom lb) c l with
        | some e => findNumHBW (pyStrip e.text)
        | none => b := by
  intro l
  induction l with
  | nil => intro c b; rfl
  | cons e rest ih =>
    intro c b
    rw [hardGo]
    by_cases hkw : containsSub hbwStr (pyStrip e.text) = true
    · rw [if_neg (by rw [hkw]; exact fun hcon => Bool.noConfusion hcon)]
      by_cases hgeo : e.box.y0 < lb.y1 + 5 ∧ e.box.y1 > lb.y0 - 5 ∧ e.box.x0 > lb.x0
      · rw [if_pos hgeo]
        by_cases hdist : e.box.x0 - lb.x1 < c
        · rw [if_pos hdist]
          rcases hnum : findNumHBW (pyStrip e.text) with _ | nm
          · rw [ih, selectBestC_cons_skip (fun hcon => by
              have := (qualHard_eq_true_iff.mp hcon.1).2.2
              rw [hnum] at this
              exact Bool.noConfusion this)]
          · have hq : qualHard lb e = true :=
              qualHard_eq_true_iff.mpr ⟨hkw, hgeo, by rw [hnum]; rfl⟩
            rw [selectBestC_cons_update hq hdist]
            refine Eq.trans (ih (offsetFrom lb e) (some nm)) ?_
            rcases hfe : selectBestC (qualHard lb) (offsetFrom lb) (offsetFrom lb e) rest
              with _ | bb
            · exact hnum.symm
            · rfl
        · have hsk : selectBestC (qualHard lb) (offsetFrom lb) c (e :: rest) =
              selectBestC (qualHard lb) (offsetFrom lb) c rest :=
            selectBestC_cons_skip (fun hcon => hdist hcon.2)
          rw [if_neg hdist, ih, hsk]
      · rw [if_neg hgeo, ih,
          selectBestC_cons_skip (fun hcon => hgeo (qualHard_eq_true_iff.mp hcon.1).2.1)]
    · have hkw' : containsSub hbwStr (pyStrip e.text) = false := Bool.eq_false_iff.mpr hkw
      rw [if_pos hkw', ih,
        selectBestC_cons_skip (fun hcon => by
          have := (qualHard_eq_true_iff.mp hcon.1).1
          rw [hkw'] at this
          exact Bool.noConfusion this)]

theorem findValueFrom_eq (elements : List Element) (label_text required_keyword : List Char)
    (lb : Box) :
    findValueFrom elements label_text required_keyword lb =
      match selectBestC (qualValue label_text required_keyword lb) (offsetFrom lb) 9999
          elements with
      | some e =>
        if (pyStrip e.text).isEmpty then none
        else
          (match firstNumRun (pyStrip e.text) with
           | some g => some g
           | none => some (pyStrip e.text))
      | none => none := by
  rw [findValueFrom, valueGo_eq]
  rcases hfe : selectBestC (qualValue label_text required_keyword lb) (offsetFrom lb) 9999
      elements with _ | e <;> rfl

theorem hardnessNeighbor_eq (elements : List Element) (lb : Box) :
    hardnessNeighbor elements lb =
      match selectBestC (qualHard lb) (offsetFrom lb) 9999 elements with
      | some e => findNumHBW (pyStrip e.text)
      | none => none := by
  rw [hardnessNeighbor, hardGo_eq]


/-! ## String-scanning lemmas -/

theorem dropWhile_head_not {α : Type} {p : α → Bool} :
    ∀ {l : List α} {d : α} {t : List α}, l.dropWhile p = d :: t → p d = false
  | [], _, _, h => by simp [List.dropWhile] at h
  | c :: cs, d, t, h => by
    rw [List.dropWhile_cons] at h
    by_cases hc : p c = true
    · rw [if_pos hc] at h
      exact dropWhile_head_not h
    · rw [if_neg hc] at h
      cases h
      exact Bool.eq_false_iff.mpr hc

theorem containsSub_iff_append {needle hay : List Char} :
    containsSub needle hay = true ↔ ∃ s1 s2, hay = s1 ++ needle ++ s2 := by
  induction hay with
  | nil =>
    rw [containsSub]
    constructor
    · intro h
      refine ⟨[], [], ?_⟩
      have : needle = [] := by
        cases needle with
        | nil => rfl
        | cons c cs => exact absurd h (by simp)
      simp [this]
    · rintro ⟨s1, s2, hs⟩
      have h1 : s1 ++ needle = [] := (List.append_eq_nil.mp hs.symm).1
      have h2 : needle = [] := (List.append_eq_nil.mp h1).2
      simp [h2]
  | cons c rest ih =>
    rw [containsSub, Bool.or_eq_true, ih]
    constructor
    · rintro (hpre | ⟨s1, s2, hs⟩)
      · obtain ⟨t, ht⟩ := List.isPrefixOf_iff_prefix.mp hpre
        exact ⟨[], t, by simp [ht]⟩
      · exact ⟨c :: s1, s2, by simp [hs]⟩
    · rintro ⟨s1, s2, hs⟩
      cases s1 with
      | nil =>
        left
        exact List.isPrefixOf_iff_prefix.mpr ⟨s2, by simpa using hs.symm⟩
      | cons a s1 =>
        right
        refine ⟨s1, s2, ?_⟩
        have := hs
        simp only [List.cons_append] at this
        exact (List.cons_eq_cons.mp this).2

theorem containsSub_lower_of_containsSub {needle hay : List Char}
    (h : containsSub needle hay = true) :
    containsSub (lowerStr needle) (lowerStr hay) = true := by
  obtain ⟨s1, s2, hs⟩ := containsSub_iff_append.mp h
  exact containsSub_iff_append.mpr
    ⟨lowerStr s1, lowerStr s2, by simp [hs, lowerStr]⟩

theorem firstNumRun_none_iff {s : List Char} :
    firstNumRun s = none ↔ ∀ c ∈ s, isDigDot c = false := by
  induction s with
  | nil => simp [firstNumRun]
  | cons c cs ih =>
    rw [firstNumRun]
    by_cases hc : isDigDot c = true
    · rw [if_pos hc]
      simp [hc]
    · rw [if_neg hc, ih]
      simp [Bool.eq_false_iff.mpr hc]

theorem firstNumRun_some {s r : List Char} (h : firstNumRun s = some r) :
    r ≠ [] ∧ r.all isDigDot = true ∧ ∃ s1 s2, s = s1 ++ r ++ s2 ∧
      (∀ x ∈ s1, isDigDot x = false) ∧ (∀ d t, s2 = d :: t → isDigDot d = false) := by
  induction s with
  | nil => exact absurd h (by simp [firstNumRun])
  | cons c cs ih =>
    rw [firstNumRun] at h
    by_cases hc : isDigDot c = true
    · rw [if_pos hc] at h
      cases h
      refine ⟨by simp, ?_, [], cs.dropWhile isDigDot, ?_, by simp, ?_⟩
      · simp only [List.all_cons, hc, Bool.true_and]
        exact List.all_eq_true.mpr fun x hx => List.mem_takeWhile_imp hx
      · simp [List.takeWhile_append_dropWhile]
      · intro d t hdt
        exact dropWhile_head_not hdt
    · rw [if_neg hc] at h
      obtain ⟨hne, hall, s1, s2, hs, hs1, hs2⟩ := ih h
      exact ⟨hne, hall, c :: s1, s2, by simp [hs],
        fun x hx => by
          rcases List.mem_cons.mp hx with hx | hx
          · exact hx ▸ Bool.eq_false_iff.mpr hc
          · exact hs1 x hx,
        hs2⟩

theorem findNumHBW_some_ne_nil {s r : List Char} (h : findNumHBW s = some r) : r ≠ [] := by
  induction s with
  | nil => exact absurd h (by simp [findNumHBW])
  | cons c cs ih =>
    rw [findNumHBW] at h
    by_cases hc : isDigDot c = true
    · rw [if_pos hc] at h
      by_cases hp : List.isPrefixOf ('H' :: 'B' :: 'W' :: [])
          ((cs.dropWhile isDigDot).dropWhile isPySpace) = true
      · rw [if_pos hp] at h
        cases h
        simp
      · rw [if_neg hp] at h
        exact ih h
    · rw [if_neg hc] at h
      exact ih h

/-! ## Spatial label locator (lines 129-133) -/

theorem findLabelBBox_some {label : List Char} {l : List Element} {b : Box}
    (h : findLabelBBox label l = some b) :
    ∃ pre e post, l = pre ++ e :: post ∧ containsSub label e.text = true ∧
      (∀ x ∈ pre, containsSub label x.text = false) ∧ b = e.box := by
  induction l with
  | nil => exact absurd h (by simp [findLabelBBox])
  | cons e rest ih =>
    rw [findLabelBBox] at h
    by_cases hc : containsSub label e.text = true
    · rw [if_pos hc] at h
      cases h
      exact ⟨[], e, rest, by simp, hc, by simp, rfl⟩
    · rw [if_neg hc] at h
      obtain ⟨pre, e', post, hl, he', hpre, hb⟩ := ih h
      exact ⟨e :: pre, e', post, by simp [hl],
        he',
        fun x hx => by
          rcases List.mem_cons.mp hx with hx | hx
          · exact hx ▸ Bool.eq_false_iff.mpr hc
          · exact hpre x hx,
        hb⟩

theorem findLabelBBox_none_iff {label : List Char} {l : List Element} :
    findLabelBBox label l = none ↔ ∀ e ∈ l, containsSub label e.text = false := by
  induction l with
  | nil => simp [findLabelBBox]
  | cons e rest ih =>
    rw [findLabelBBox]
    by_cases hc : containsSub label e.text = true
    · rw [if_pos hc]
      simp [hc]
    · rw [if_neg hc, ih]
      simp [Bool.eq_false_iff.mpr hc]


/-! ## Sequential locator lemmas (lines 85-98) -/

theorem firstIdxAux_no {label : List Char} {cs : List (List Char)}
    (h : ∀ c ∈ cs, matchCI label c = false) : ∀ i, firstIdxAux label cs i = -1 := by
  induction cs with
  | nil => intro i; rfl
  | cons c cs ih =>
    intro i
    rw [firstIdxAux, if_neg (by simp [h c (List.mem_cons_self ..)])]
    exact ih (fun x hx => h x (List.mem_cons_of_mem _ hx)) (i + 1)

theorem firstIdxAux_found {label c : List Char} {pre post : List (List Char)}
    (hc : matchCI label c = true) (hpre : ∀ x ∈ pre, matchCI label x = false) :
    ∀ i, firstIdxAux label (pre ++ c :: post) i = i + pre.length := by
  induction pre with
  | nil =>
    intro i
    rw [List.nil_append, firstIdxAux, if_pos hc]
    simp
  | cons a pre ih =>
    intro i
    rw [List.cons_append, firstIdxAux,
      if_neg (by simp [hpre a (List.mem_cons_self ..)]),
      ih (fun x hx => hpre x (List.mem_cons_of_mem _ hx)) (i + 1)]
    simp only [List.length_cons]
    push_cast
    ring

theorem lastIdxAux_no {label : List Char} {cs : List (List Char)}
    (h : ∀ c ∈ cs, matchCI label c = false) : ∀ i acc, lastIdxAux label cs i acc = acc := by
  induction cs with
  | nil => intro i acc; rfl
  | cons c cs ih =>
    intro i acc
    rw [lastIdxAux, if_neg (by simp [h c (List.mem_cons_self ..)])]
    exact ih (fun x hx => h x (List.mem_cons_of_mem _ hx)) (i + 1) acc

theorem lastIdxAux_found {label c : List Char} {pre post : List (List Char)}
    (hc : matchCI label c = true) (hpost : ∀ x ∈ post, matchCI label x = false) :
    ∀ i acc, lastIdxAux label (pre ++ c :: post) i acc = i + pre.length := by
  induction pre with
  | nil =>
    intro i acc
    rw [List.nil_append, lastIdxAux, if_pos hc, lastIdxAux_no hpost]
    simp
  | cons a pre ih =>
    intro i acc
    rw [List.cons_append, lastIdxAux, ih (i + 1)]
    simp only [List.length_cons]
    push_cast
    ring

/-! ## Heuristic characterizations -/

/-- Failure of both "Graphite Fraction" rules at the head of a window
suffix (vacuously true at the end of the window). -/
def gfFailsAt : List (List Char) → Bool
  | [] => true
  | n :: rest => !(containsSub pctStr n && hasDigit n) && !(hasDigit n && rest.head? == some pctStr)

theorem graphiteFractionHeur_some {w : List (List Char)} {v : List Char}
    (h : graphiteFractionHeur w = some v) :
    ∃ k n rest, w.drop k = n :: rest ∧ (∀ j < k, gfFailsAt (w.drop j) = true) ∧
      ((containsSub pctStr n && hasDigit n) = true ∧ v = n ∨
       (containsSub pctStr n && hasDigit n) = false ∧
         (hasDigit n && rest.head? == some pctStr) = true ∧ v = n ++ pctStr) := by
  induction w with
  | nil => exact absurd h (by simp [graphiteFractionHeur])
  | cons n rest ih =>
    rw [graphiteFractionHeur] at h
    by_cases h1 : (containsSub pctStr n && hasDigit n) = true
    · rw [if_pos h1] at h
      injection h with hv
      subst hv
      exact ⟨0, n, rest, rfl, by simp, Or.inl ⟨h1, rfl⟩⟩
    · rw [if_neg h1] at h
      by_cases h2 : (hasDigit n && rest.head? == some pctStr) = true
      · rw [if_pos h2] at h
        injection h with hv
        subst hv
        exact ⟨0, n, rest, rfl, by simp,
          Or.inr ⟨Bool.eq_false_iff.mpr h1, h2, rfl⟩⟩
      · rw [if_neg h2] at h
        obtain ⟨k, n', rest', hdrop, hfail, hacc⟩ := ih h
        refine ⟨k + 1, n', rest', hdrop, ?_, hacc⟩
        intro j hj
        cases j with
        | zero =>
          simp only [List.drop_zero, gfFailsAt]
          rw [Bool.eq_false_iff.mpr h1, Bool.eq_false_iff.mpr h2]
          rfl
        | succ j => exact hfail j (Nat.lt_of_succ_lt_succ hj)

theorem graphiteFractionHeur_none_iff {w : List (List Char)} :
    graphiteFractionHeur w = none ↔ ∀ j, gfFailsAt (w.drop j) = true := by
  induction w with
  | nil => simp [graphiteFractionHeur, gfFailsAt]
  | cons n rest ih =>
    rw [graphiteFractionHeur]
    by_cases h1 : (containsSub pctStr n && hasDigit n) = true
    · rw [if_pos h1]
      constructor
      · intro h; exact absurd h (by simp)
      · intro h
        have := h 0
        simp only [List.drop_zero, gfFailsAt, h1] at this
        exact absurd this (by simp)
    · rw [if_neg h1]
      by_cases h2 : (hasDigit n && rest.head? == some pctStr) = true
      · rw [if_pos h2]
        constructor
        · intro h; exact absurd h (by simp)
        · intro h
          have := h 0
          simp only [List.drop_zero, gfFailsAt, h2] at this
          exact absurd this (by simp)
      · rw [if_neg h2, ih]
        constructor
        · intro h j
          cases j with
          | zero =>
            simp only [List.drop_zero, gfFailsAt]
            rw [Bool.eq_false_iff.mpr h1, Bool.eq_false_iff.mpr h2]
            rfl
          | succ j => exact h j
        · intro h j
          exact h (j + 1)

theorem numericTrimHeur_some {w : List (List Char)} {v : List Char}
    (h : numericTrimHeur w = some v) :
    ∃ pre n post, w = pre ++ n :: post ∧
      (∀ x ∈ pre, (hasDigit x && !endsPct x) = false) ∧
      (hasDigit n && !endsPct n) = true ∧ v = rstripTrim n := by
  induction w with
  | nil => exact absurd h (by simp [numericTrimHeur])
  | cons n rest ih =>
    rw [numericTrimHeur] at h
    by_cases h1 : (hasDigit n && !endsPct n) = true
    · rw [if_pos h1] at h
      injection h with hv
      subst hv
      exact ⟨[], n, rest, by simp, by simp, h1, rfl⟩
    · rw [if_neg h1] at h
      obtain ⟨pre, n', post, hw, hpre, hn, hv⟩ := ih h
      exact ⟨n :: pre, n', post, by simp [hw],
        fun x hx => by
          rcases List.mem_cons.mp hx with hx | hx
          · exact hx ▸ Bool.eq_false_iff.mpr h1
          · exact hpre x hx,
        hn, hv⟩

theorem numericTrimHeur_none_iff {w : List (List Char)} :
    numericTrimHeur w = none ↔ ∀ n ∈ w, (hasDigit n && !endsPct n) = false := by
  induction w with
  | nil => simp [numericTrimHeur]
  | cons n rest ih =>
    rw [numericTrimHeur]
    by_cases h1 : (hasDigit n && !endsPct n) = true
    · rw [if_pos h1]
      constructor
      · intro h; exact absurd h (by simp)
      · intro hall
        have := hall n (List.mem_cons_self ..)
        rw [h1] at this
        exact Bool.noConfusion this
    · rw [if_neg h1, ih]
      constructor
      · intro h x hx
        rcases List.mem_cons.mp hx with hx | hx
        · exact hx ▸ Bool.eq_false_iff.mpr h1
        · exact h x hx
      · intro h x hx
        exact h x (List.mem_cons_of_mem _ hx)

theorem rstripTrim_decomp (n : List Char) :
    n = rstripTrim n ++ (n.reverse.takeWhile isTrimChar).reverse ∧
      ((n.reverse.takeWhile isTrimChar).reverse).all isTrimChar = true ∧
      (∀ d, (rstripTrim n).getLast? = some d → isTrimChar d = false) := by
  refine ⟨?_, ?_, ?_⟩
  · rw [rstripTrim, ← List.reverse_append, List.takeWhile_append_dropWhile, List.reverse_reverse]
  · rw [List.all_reverse]
    exact List.all_eq_true.mpr fun x hx => List.mem_takeWhile_imp hx
  · intro d hd
    rw [rstripTrim, List.getLast?_reverse] at hd
    rcases hh : List.dropWhile isTrimChar n.reverse with _ | ⟨d', t⟩
    · rw [hh] at hd
      exact absurd hd (by simp)
    · rw [hh] at hd
      simp only [List.head?_cons, Option.some.injEq] at hd
      exact hd ▸ dropWhile_head_not hh

/-! ## Hardness resolver lemmas (lines 190-221) -/

theorem hardnessNeighbor_some_ne_nil {E : List Element} {lb : Box} {v : List Char}
    (h : hardnessNeighbor E lb = some v) : v ≠ [] := by
  rw [hardnessNeighbor_eq] at h
  split at h
  · exact findNumHBW_some_ne_nil h
  · exact Option.noConfusion h

theorem resolveHardLabel_some_ne_nil {E : List Element} {lbl : Element} {v : List Char}
    (h : resolveHardLabel E lbl = some v) : v ≠ [] := by
  rw [resolveHardLabel] at h
  split at h
  next g heq =>
    cases h
    exact findNumHBW_some_ne_nil heq
  next heq => exact hardnessNeighbor_some_ne_nil h

theorem insertByY1_perm (a : Element) (l : List Element) :
    List.Perm (insertByY1 a l) (a :: l) := by
  induction l with
  | nil => exact List.Perm.refl _
  | cons b l ih =>
    rw [insertByY1]
    by_cases hab : a.box.y1 ≥ b.box.y1
    · rw [if_pos hab]
    · rw [if_neg hab]
      exact List.Perm.trans (List.Perm.cons b ih) (List.Perm.swap a b l)

theorem sortByY1Desc_perm (l : List Element) : List.Perm (sortByY1Desc l) l := by
  induction l with
  | nil => exact List.Perm.refl _
  | cons a l ih =>
    rw [sortByY1Desc]
    exact List.Perm.trans (insertByY1_perm a (sortByY1Desc l)) (List.Perm.cons a ih)

theorem insertByY1_sorted {a : Element} {l : List Element}
    (h : List.Pairwise (fun x y => y.box.y1 ≤ x.box.y1) l) :
    List.Pairwise (fun x y => y.box.y1 ≤ x.box.y1) (insertByY1 a l) := by
  induction l with
  | nil => simp [insertByY1]
  | cons b l ih =>
    rw [insertByY1]
    obtain ⟨hb, hl⟩ := List.pairwise_cons.mp h
    by_cases hab : a.box.y1 ≥ b.box.y1
    · rw [if_pos hab]
      refine List.pairwise_cons.mpr ⟨?_, h⟩
      intro x hx
      rcases List.mem_cons.mp hx with hx | hx
      · exact hx ▸ hab
      · exact le_trans (hb x hx) hab
    · rw [if_neg hab]
      refine List.pairwise_cons.mpr ⟨?_, ih hl⟩
      intro x hx
      rcases List.mem_cons.mp ((insertByY1_perm a l).mem_iff.mp hx) with hx | hx
      · exact hx ▸ le_of_lt (lt_of_not_ge hab)
      · exact hb x hx

theorem sortByY1Desc_sorted (l : List Element) :
    List.Pairwise (fun x y => y.box.y1 ≤ x.box.y1) (sortByY1Desc l) := by
  induction l with
  | nil => simp [sortByY1Desc]
  | cons a l ih =>
    rw [sortByY1Desc]
    exact insertByY1_sorted ih

theorem hardLoop_take (E : List Element) :
    ∀ (ls : List Element) (acc : List (List Char)), acc.length < 2 →
      hardLoop E ls acc = (acc ++ ls.filterMap (resolveHardLabel E)).take 2 := by
  intro ls
  induction ls with
  | nil =>
    intro acc hacc
    rw [hardLoop, List.filterMap_nil, List.append_nil,
      List.take_of_length_le (le_of_lt hacc)]
  | cons lbl rest ih =>
    intro acc hacc
    rcases hres : resolveHardLabel E lbl with _ | v
    · have hstep : hardLoop E (lbl :: rest) acc = hardLoop E rest acc := by
        rw [hardLoop, hres]
      rw [hstep, ih acc hacc, List.filterMap_cons_none hres]
    · have hne := resolveHardLabel_some_ne_nil hres
      have hemp : v.isEmpty = false := by
        cases v with
        | nil => exact absurd rfl hne
        | cons c t => rfl
      have hstep : hardLoop E (lbl :: rest) acc =
          (if (acc ++ v :: []).length ≥ 2 then acc ++ v :: []
           else hardLoop E rest (acc ++ v :: [])) := by
        rw [hardLoop, hres]
        show (if v.isEmpty = true then hardLoop E rest acc
          else if (acc ++ v :: []).length ≥ 2 then acc ++ v :: []
          else hardLoop E rest (acc ++ v :: [])) = _
        rw [if_neg (by rw [hemp]; exact fun hcon => Bool.noConfusion hcon)]
      rw [hstep, List.filterMap_cons_some hres]
      rcases acc with _ | ⟨a, acc2⟩
      · rw [if_neg (by simp)]
        simp only [List.nil_append]
        rw [ih (v :: []) (by simp)]
        simp
      · rcases acc2 with _ | ⟨a2, acc3⟩
        · rw [if_pos (by simp)]
          simp
        · simp only [List.length_cons] at hacc
          omega


/-! ## Concrete inputs used by counterexamples and witnesses -/

def c1Text : List Char := "tensile strength is 500 Mpa".toList

def c1Elem : Element := ⟨c1Text, ⟨0, 0, 50, 10⟩⟩

def c1wElem : Element := ⟨sTensile, ⟨1, 2, 3, 4⟩⟩

def c2Label : Element := ⟨hardnessStr, ⟨10, 0, 50, 10⟩⟩

def c2CandText : List Char := "200 HBW".toList

def c2Cand : Element := ⟨c2CandText, ⟨8, 0, 30, 10⟩⟩

def v200 : List Char := "200".toList

def v180 : List Char := "180".toList

def v450 : List Char := "450".toList

def c3Label : Element := ⟨sTensile, ⟨0, 0, 50, 10⟩⟩

def c3FarText : List Char := "900 Mpa".toList

def c3Far : Element := ⟨c3FarText, ⟨10100, 0, 10150, 10⟩⟩

def c3wValText : List Char := "450 Mpa".toList

def c3wVal : Element := ⟨c3wValText, ⟨60, 0, 100, 10⟩⟩

def c4a : List Char := "intro".toList

def c4b : List Char := "the Graphite Size row".toList

def c4c : List Char := "graphite size: 6".toList

def c4chunks : List (List Char) := c4a :: c4b :: c4c :: []

def c5NAText : List Char := "N.A. Mpa".toList

def c5NA : Element := ⟨c5NAText, ⟨60, 0, 100, 10⟩⟩

def c6win1 : List (List Char) := "12".toList :: pctStr :: "foo".toList :: []

def c6win2 : List (List Char) := "abc".toList :: "7.5%".toList :: []

def v12pct : List Char := "12%".toList

def v75pct : List Char := "7.5%".toList

def c7frag : List Char := "3.2.., ".toList

def v32 : List Char := "3.2".toList

def c8aText : List Char := "Hardness 200 HBW".toList

def c8a : Element := ⟨c8aText, ⟨0, 28, 40, 30⟩⟩

def c8bText : List Char := "Hardness 180 HBW".toList

def c8b : Element := ⟨c8bText, ⟨0, 18, 40, 20⟩⟩

def c8cText : List Char := "Hardness 170 HBW".toList

def c8c : Element := ⟨c8cText, ⟨0, 8, 40, 10⟩⟩

def c10FarText : List Char := "900 Mpa HBW 900 HBW".toList

def c10Far : Element := ⟨c10FarText, ⟨10100, 0, 10150, 10⟩⟩

def c10Box : Box := ⟨0, 0, 50, 10⟩

/-! ## Claim theorems -/

/-- C1, counterexample: the spatial label locator of
`find_value_neighbor` (lines 129-133) is case-SENSITIVE.  With the
single element "tensile strength is 500 Mpa" and label
"Tensile Strength", the lowered element text contains the lowered
label, yet the locator returns no bounding box — contradicting the
claim that it returns the box of the first element containing the
label case-insensitively. -/
theorem c1_counterexample :
    findLabelBBox sTensile (c1Elem :: []) = none ∧
      containsSub (lowerStr sTensile) (lowerStr c1Elem.text) = true := by
  constructor
  · decide
  · decide

/-- C1, amended: the spatial LabelLocator returns the bounding box of
the first element in scan order whose text contains the label under
CASE-SENSITIVE comparison; a returned box always belongs to an element
whose text genuinely contains the label (hence also under
case-insensitive comparison), and when no element contains the label
case-sensitively it returns none — even if a case-insensitive match
exists. -/
theorem c1_spatial_locator (elements : List Element) (label : List Char) :
    (∀ b, findLabelBBox label elements = some b →
      ∃ pre e post, elements = pre ++ e :: post ∧
        containsSub label e.text = true ∧
        containsSub (lowerStr label) (lowerStr e.text) = true ∧
        (∀ x ∈ pre, containsSub label x.text = false) ∧ b = e.box) ∧
    (findLabelBBox label elements = none ↔
      ∀ e ∈ elements, containsSub label e.text = false) := by
  constructor
  · intro b h
    obtain ⟨pre, e, post, hl, he, hpre, hb⟩ := findLabelBBox_some h
    exact ⟨pre, e, post, hl, he, containsSub_lower_of_containsSub he, hpre, hb⟩
  · exact findLabelBBox_none_iff

theorem c1_witness :
    (∃ pre e post, (c1wElem :: []) = pre ++ e :: post ∧
      containsSub sTensile e.text = true ∧
      containsSub (lowerStr sTensile) (lowerStr e.text) = true ∧
      (∀ x ∈ pre, containsSub sTensile x.text = false) ∧ c1wElem.box = e.box) ∧
    (findLabelBBox sTensile ([] : List Element) = none ↔
      ∀ e ∈ ([] : List Element), containsSub sTensile e.text = false) :=
  ⟨(c1_spatial_locator (c1wElem :: []) sTensile).1 c1wElem.box (by decide),
   (c1_spatial_locator ([] : List Element) sTensile).2⟩

/-- C2, counterexample: the hardness neighbor search is NOT the §4.6
search with tolerance 5.  The candidate "200 HBW" at `ex0 = 8` with
label box `lx0 = 10` satisfies the claimed left-edge condition
`ex0 ≥ lx0 - 5` (and re-validates against the numeric-HBW pattern),
so the claimed search returns "200"; the code's search requires the
strict `ex0 > lx0` and returns nothing. -/
theorem c2_counterexample :
    hardnessNeighbor (c2Label :: c2Cand :: []) c2Label.box = none ∧
      claimHardnessNeighbor (c2Label :: c2Cand :: []) c2Label.box hardnessStr =
        some v200 := by
  constructor
  · norm_num +decide [hardnessNeighbor, hardGo, c2Label, c2Cand, containsSub, pyStrip,
      isPySpace, hbwStr]
  · norm_num +decide [claimHardnessNeighbor, selectBestC, claimHardQual, offsetFrom,
      c2Label, c2Cand, containsSub, pyStrip, isPySpace, hbwStr, hardnessStr, findNumHBW,
      isDigDot, v200]

/-- C2, amended: both neighbor searches instantiate one
minimal-horizontal-offset selection template (`selectBestC`, seeded
with the same 9999 sentinel, first-in-scan-order on ties), but the
hardness instance differs from the §4.6 instance in more than the
vertical tolerance (5 instead of 2): it has NO exclusion of elements
containing the label text (only the `HBW` keyword filter), its
left-edge condition is the strict `ex0 > lx0` rather than
`ex0 ≥ lx0 - 5`, and the numeric-HBW-pattern re-validation is part of
the qualification (a closer candidate that fails the pattern does not
block a farther one); the winner contributes its pattern group. -/
theorem c2_hardness_refinement (elements : List Element)
    (label_text required_keyword : List Char) (lb : Box) :
    findValueFrom elements label_text required_keyword lb =
      (match selectBestC (qualValue label_text required_keyword lb) (offsetFrom lb) 9999
          elements with
       | some e =>
         if (pyStrip e.text).isEmpty then none
         else
           (match firstNumRun (pyStrip e.text) with
            | some g => some g
            | none => some (pyStrip e.text))
       | none => none) ∧
    hardnessNeighbor elements lb =
      (match selectBestC (qualHard lb) (offsetFrom lb) 9999 elements with
       | some e => findNumHBW (pyStrip e.text)
       | none => none) :=
  ⟨findValueFrom_eq elements label_text required_keyword lb, hardnessNeighbor_eq elements lb⟩

/-- C3, counterexample: a qualifying candidate at horizontal offset
10050 (≥ the 9999 seed) is never selected: the resolver returns none
although the claim says it selects the qualifying element of minimal
offset. -/
theorem c3_counterexample :
    qualValue sTensile sMpa c3Label.box c3Far = true ∧
      find_value_neighbor (c3Label :: c3Far :: []) sTensile sMpa = none := by
  constructor
  · norm_num +decide [qualValue, c3Label, c3Far, containsSub, pyStrip, isPySpace, sTensile,
      sMpa]
  · norm_num +decide [find_value_neighbor, findLabelBBox, findValueFrom, valueGo, c3Label,
      c3Far, containsSub, pyStrip, isPySpace, sTensile, sMpa]

/-- C3, amended: given the located label box, the resolver selects,
among elements that do not contain the label text, overlap the
vertical band with tolerance 2, satisfy `ex0 ≥ lx0 - 5`, contain the
keyword AND have offset `ex0 - lx1 < 9999`, the one with smallest
offset, ties resolved in favour of the first in scan order; any
winner qualifies (in particular `ex0 ≥ lx0 - 5` holds of it) and is
offset-minimal among all qualifying elements. -/
theorem c3_spatial_selection (elements : List Element)
    (label_text required_keyword : List Char) (lb : Box) :
    (∀ v, findValueFrom elements label_text required_keyword lb = some v →
      ∃ e ∈ elements, qualValue label_text required_keyword lb e = true ∧
        offsetFrom lb e < 9999 ∧
        ∀ x ∈ elements, qualValue label_text required_keyword lb x = true →
          offsetFrom lb e ≤ offsetFrom lb x) ∧
    (∀ pre e post, elements = pre ++ e :: post →
      qualValue label_text required_keyword lb e = true →
      offsetFrom lb e < 9999 →
      (∀ x ∈ pre, qualValue label_text required_keyword lb x = true →
        offsetFrom lb e < offsetFrom lb x) →
      (∀ x ∈ elements, qualValue label_text required_keyword lb x = true →
        offsetFrom lb e ≤ offsetFrom lb x) →
      findValueFrom elements label_text required_keyword lb =
        (if (pyStrip e.text).isEmpty then none
         else
           (match firstNumRun (pyStrip e.text) with
            | some g => some g
            | none => some (pyStrip e.text)))) := by
  constructor
  · intro v h
    rw [findValueFrom_eq] at h
    split at h
    next e heq =>
      obtain ⟨hmem, hq, hf, hmin⟩ := selectBestC_mem heq
      exact ⟨e, hmem, hq, hf, hmin⟩
    next heq => exact Option.noConfusion h
  · intro pre e post hsplit hq hf hpre hall
    subst hsplit
    have hall' : ∀ x ∈ post, qualValue label_text required_keyword lb x = true →
        offsetFrom lb e ≤ offsetFrom lb x := by
      intro x hx hqx
      exact hall x (by simp [hx]) hqx
    rw [findValueFrom_eq, selectBestC_first hq hf hpre hall']

theorem c3_witness :
    findValueFrom (c3wVal :: []) sTensile sMpa ⟨0, 0, 50, 10⟩ =
      (if (pyStrip c3wVal.text).isEmpty then none
       else
         (match firstNumRun (pyStrip c3wVal.text) with
          | some g => some g
          | none => some (pyStrip c3wVal.text))) :=
  (c3_spatial_selection (c3wVal :: []) sTensile sMpa ⟨0, 0, 50, 10⟩).2 [] c3wVal [] rfl
    (by norm_num +decide [qualValue, c3wVal, containsSub, pyStrip, isPySpace, sTensile, sMpa])
    (by norm_num [offsetFrom, c3wVal])
    (by simp)
    (by
      intro x hx hqx
      have hx' : x = c3wVal := by simpa using hx
      subst hx'
      exact le_refl _)

/-- C4: the sequential LabelLocator: under the FIRST policy it returns
the index of the first case-insensitively matching fragment, under
the LAST policy the index of the last matching fragment; when no
fragment matches, both loops return -1 and the per-label resolution
yields nothing (no heuristic result is produced for that field). -/
theorem c4_sequential_locator (chunks : List (List Char)) (label : List Char) :
    (∀ pre c post, chunks = pre ++ c :: post → matchCI label c = true →
      (∀ x ∈ pre, matchCI label x = false) →
      firstIdx label chunks = pre.length) ∧
    (∀ pre c post, chunks = pre ++ c :: post → matchCI label c = true →
      (∀ x ∈ post, matchCI label x = false) →
      lastIdx label chunks = pre.length) ∧
    ((∀ c ∈ chunks, matchCI label c = false) →
      firstIdx label chunks = -1 ∧ lastIdx label chunks = -1 ∧
      ∀ lbl : MicroLabel, lbl.text = label → resolveMicro chunks lbl = none) := by
  refine ⟨?_, ?_, ?_⟩
  · intro pre c post hsplit hc hpre
    subst hsplit
    rw [firstIdx, firstIdxAux_found hc hpre 0]
    simp
  · intro pre c post hsplit hc hpost
    subst hsplit
    rw [lastIdx, lastIdxAux_found hc hpost 0 (-1)]
    simp
  · intro h
    refine ⟨firstIdxAux_no h 0, lastIdxAux_no h 0 (-1), ?_⟩
    intro lbl hlbl
    have hidx : locateIdx lbl.pref lbl.text chunks = -1 := by
      cases hp : lbl.pref
      · rw [locateIdx, firstIdx]
        exact firstIdxAux_no (hlbl ▸ h) 0
      · rw [locateIdx, lastIdx]
        exact lastIdxAux_no (hlbl ▸ h) 0 (-1)
    simp [resolveMicro, hidx]

theorem c4_witness :
    firstIdx MicroLabel.size.text c4chunks = 1 ∧
      lastIdx MicroLabel.size.text c4chunks = 2 ∧
      resolveMicro [] MicroLabel.size = none := by
  refine ⟨?_, ?_, ?_⟩
  · have := (c4_sequential_locator c4chunks MicroLabel.size.text).1
      ("intro".toList :: []) ("the Graphite Size row".toList)
      ("graphite size: 6".toList :: []) (by rfl) (by decide) (by decide)
    simpa using this
  · have := (c4_sequential_locator c4chunks MicroLabel.size.text).2.1
      ("intro".toList :: "the Graphite Size row".toList :: []) ("graphite size: 6".toList)
      [] (by rfl) (by decide) (by decide)
    simpa using this
  · exact ((c4_sequential_locator [] MicroLabel.size.text).2.2 (by simp)).2.2
      MicroLabel.size rfl

/-- C5, counterexample: the extraction regex `([\d\.]+)` can match a
periods-only token.  With winning neighbor text "N.A. Mpa" the
resolver returns ".": a value that contains no digit and is not the
raw winning text either — contradicting the claim that the value is a
numeric token of digits with an optional decimal point, or else the
raw text. -/
theorem c5_counterexample :
    find_value_neighbor (c3Label :: c5NA :: []) sTensile sMpa = some ('.' :: []) ∧
      (∀ c ∈ ('.' :: [] : List Char), c.isDigit = false) ∧
      ('.' :: [] : List Char) ≠ pyStrip c5NA.text := by
  refine ⟨?_, by decide, by decide⟩
  norm_num +decide [find_value_neighbor, findLabelBBox, findValueFrom, valueGo, firstNumRun,
    c3Label, c5NA, containsSub, pyStrip, isPySpace, isDigDot, sTensile, sMpa]

/-- C5, amended: every value returned by `find_value_neighbor` comes
from a keyword-bearing element and is either (a) the leftmost maximal
run of digit-OR-PERIOD characters of that element's stripped text — a
non-empty run that may consist of periods alone — or (b) the raw
stripped text itself, exactly when that text contains no digit and no
period. -/
theorem c5_numeric_extraction (elements : List Element)
    (label_text required_keyword v : List Char)
    (h : find_value_neighbor elements label_text required_keyword = some v) :
    ∃ e ∈ elements,
      containsSub required_keyword (pyStrip e.text) = true ∧
      ((v ≠ [] ∧ v.all isDigDot = true ∧
          (∃ s1 s2, pyStrip e.text = s1 ++ v ++ s2 ∧ (∀ x ∈ s1, isDigDot x = false) ∧
            ∀ d t, s2 = d :: t → isDigDot d = false)) ∨
       (v = pyStrip e.text ∧ ∀ c ∈ v, isDigDot c = false)) := by
  rw [find_value_neighbor] at h
  split at h
  next heq => exact Option.noConfusion h
  next lb heq =>
    rw [findValueFrom_eq] at h
    split at h
    next e hsel =>
      obtain ⟨hmem, hq, _, _⟩ := selectBestC_mem hsel
      have hkw : containsSub required_keyword (pyStrip e.text) = true :=
        (qualValue_eq_true_iff.mp hq).2.2.2.2
      refine ⟨e, hmem, hkw, ?_⟩
      by_cases hemp : (pyStrip e.text).isEmpty = true
      · rw [if_pos hemp] at h
        exact Option.noConfusion h
      · rw [if_neg hemp] at h
        rcases hrun : firstNumRun (pyStrip e.text) with _ | r
        · rw [hrun] at h
          injection h with hv
          subst hv
          exact Or.inr ⟨rfl, fun c hc =>
            (firstNumRun_none_iff.mp hrun) c hc⟩
        · rw [hrun] at h
          injection h with hv
          subst hv
          obtain ⟨hne, hall, s1, s2, hsplit, hs1, hs2⟩ := firstNumRun_some hrun
          exact Or.inl ⟨hne, hall, s1, s2, hsplit, hs1, hs2⟩
    next hsel => exact Option.noConfusion h

theorem c5_witness :
    ∃ e ∈ (c3Label :: c3wVal :: []),
      containsSub sMpa (pyStrip e.text) = true ∧
      ((v450 ≠ [] ∧ v450.all isDigDot = true ∧
          (∃ s1 s2, pyStrip e.text = s1 ++ v450 ++ s2 ∧
            (∀ x ∈ s1, isDigDot x = false) ∧
            ∀ d t, s2 = d :: t → isDigDot d = false)) ∨
       (v450 = pyStrip e.text ∧ ∀ c ∈ v450, isDigDot c = false)) :=
  c5_numeric_extraction (c3Label :: c3wVal :: []) sTensile sMpa v450
    (by norm_num +decide [find_value_neighbor, findLabelBBox, findValueFrom, valueGo,
      firstNumRun, c3Label, c3wVal, containsSub, pyStrip, isPySpace, isDigDot, sTensile,
      sMpa, v450])

/-- C6: the `percent_or_split_percent` heuristic scans the window once
and stops at the first fragment satisfying either rule: a fragment
containing `%` and a digit is accepted as-is; otherwise a
digit-bearing fragment whose immediate successor is exactly "%" is
accepted as the concatenation of the two; a returned value always
arises this way at the first non-failing position, `none` exactly when
every position fails both rules; in particular
`["12", "%", "foo"]` yields "12%" and `["abc", "7.5%"]` yields
"7.5%". -/
theorem c6_percent_heuristic (w : List (List Char)) :
    (∀ v, graphiteFractionHeur w = some v →
      ∃ k n rest, w.drop k = n :: rest ∧ (∀ j < k, gfFailsAt (w.drop j) = true) ∧
        ((containsSub pctStr n && hasDigit n) = true ∧ v = n ∨
         (containsSub pctStr n && hasDigit n) = false ∧
           (hasDigit n && rest.head? == some pctStr) = true ∧ v = n ++ pctStr)) ∧
    (graphiteFractionHeur w = none ↔ ∀ j, gfFailsAt (w.drop j) = true) ∧
    graphiteFractionHeur c6win1 = some v12pct ∧
    graphiteFractionHeur c6win2 = some v75pct :=
  ⟨fun _ h => graphiteFractionHeur_some h, graphiteFractionHeur_none_iff,
    by decide, by decide⟩

theorem c6_witness :
    ∃ k n rest, c6win1.drop k = n :: rest ∧ (∀ j < k, gfFailsAt (c6win1.drop j) = true) ∧
      ((containsSub pctStr n && hasDigit n) = true ∧ v12pct = n ∨
       (containsSub pctStr n && hasDigit n) = false ∧
         (hasDigit n && rest.head? == some pctStr) = true ∧ v12pct = n ++ pctStr) :=
  (c6_percent_heuristic c6win1).1 v12pct (by decide)

/-- C7: the `numeric_trim_nonpercent` heuristic accepts the first
fragment containing a digit and not ending in `%` — every
`%`-terminated fragment is rejected — and returns it with the trailing
run of whitespace, periods and commas stripped (the stripped suffix is
made of exactly those characters and the kept part no longer ends in
one); `none` exactly when no fragment qualifies; in particular
`"3.2.., "` resolves to "3.2". -/
theorem c7_numeric_trim (w : List (List Char)) :
    (∀ v, numericTrimHeur w = some v →
      ∃ pre n post, w = pre ++ n :: post ∧
        (∀ x ∈ pre, (hasDigit x && !endsPct x) = false) ∧
        (hasDigit n && !endsPct n) = true ∧ v = rstripTrim n ∧
        (∃ t, n = v ++ t ∧ t.all isTrimChar = true) ∧
        (∀ d, v.getLast? = some d → isTrimChar d = false)) ∧
    (numericTrimHeur w = none ↔ ∀ n ∈ w, (hasDigit n && !endsPct n) = false) ∧
    (∀ n, endsPct n = true → (hasDigit n && !endsPct n) = false) ∧
    numericTrimHeur (c7frag :: []) = some v32 := by
  refine ⟨?_, numericTrimHeur_none_iff, ?_, by decide⟩
  · intro v h
    obtain ⟨pre, n, post, hw, hpre, hn, hv⟩ := numericTrimHeur_some h
    obtain ⟨hdec, hallt, hlast⟩ := rstripTrim_decomp n
    subst hv
    exact ⟨pre, n, post, hw, hpre, hn, rfl,
      ⟨(n.reverse.takeWhile isTrimChar).reverse, hdec, hallt⟩, hlast⟩
  · intro n he
    rw [he]
    simp

theorem c7_witness :
    ∃ pre n post, (c7frag :: []) = pre ++ n :: post ∧
      (∀ x ∈ pre, (hasDigit x && !endsPct x) = false) ∧
      (hasDigit n && !endsPct n) = true ∧ v32 = rstripTrim n ∧
      (∃ t, n = v32 ++ t ∧ t.all isTrimChar = true) ∧
      (∀ d, v32.getLast? = some d → isTrimChar d = false) :=
  (c7_numeric_trim (c7frag :: [])).1 v32 (by decide)

/-- C8: the hardness resolver processes the hardness-labeled elements
in descending-`y1` (top-of-page-first) order — the processed list is a
permutation of the labels, pairwise sorted by descending `y1` — and
its output is exactly the first two per-label resolutions in that
order (`take 2` of the `filterMap`), hence has length at most 2 and
never depends on any label after the second accepted value; with
three valid labels at descending heights it returns exactly the top
two values in top-to-bottom order. -/
theorem c8_hardness_cap (elements : List Element) :
    processHardnessElems elements =
      ((hardnessLabels elements).filterMap (resolveHardLabel elements)).take 2 ∧
    (processHardnessElems elements).length ≤ 2 ∧
    List.Pairwise (fun x y => y.box.y1 ≤ x.box.y1) (hardnessLabels elements) ∧
    List.Perm (hardnessLabels elements)
      (elements.filter (fun e => containsSub hardnessStr e.text)) ∧
    processHardnessElems (c8c :: c8a :: c8b :: []) = v200 :: v180 :: [] := by
  have h1 : processHardnessElems elements =
      ((hardnessLabels elements).filterMap (resolveHardLabel elements)).take 2 :=
    hardLoop_take elements (hardnessLabels elements) [] (by simp)
  refine ⟨h1, ?_, sortByY1Desc_sorted _, sortByY1Desc_perm _, ?_⟩
  · rw [h1]
    exact List.length_take_le 2 _
  · norm_num +decide [processHardnessElems, hardnessLabels, sortByY1Desc, insertByY1,
      hardLoop, resolveHardLabel, hardnessNeighbor, hardGo, c8a, c8b, c8c, hardnessStr,
      containsSub, findNumHBW, isDigDot, isPySpace, pyStrip, hbwStr, v200, v180]

/-- C9: a missing or unreadable/unparseable source document (modelled
by the `missing` and `readError` outcomes of `DocResult`) makes the
extraction entry points return empty collections — the docx extractor
an empty mapping, the pdf element extractor an empty element list, the
tensile processor the all-`none` triple, the hardness processor the
empty list — with no error escaping (all model functions are total),
and downstream per-field resolution over the empty data yields
"not found" for every field. -/
theorem c9_error_handling :
    (∀ m : List Char,
      extract_micro_data (DocResult.missing) = [] ∧
      extract_micro_data (DocResult.readError m) = [] ∧
      extract_pdf_elements (DocResult.missing) = [] ∧
      extract_pdf_elements (DocResult.readError m) = [] ∧
      process_tensile (DocResult.missing) = (none, none, none) ∧
      process_tensile (DocResult.readError m) = (none, none, none) ∧
      process_hardness (DocResult.missing) = [] ∧
      process_hardness (DocResult.readError m) = []) ∧
    (∀ (m : List Char) (lbl : MicroLabel),
      (extract_micro_data (DocResult.missing)).lookup lbl = none ∧
      (extract_micro_data (DocResult.readError m)).lookup lbl = none) ∧
    (∀ label_text required_keyword : List Char,
      find_value_neighbor [] label_text required_keyword = none) :=
  ⟨fun _ => ⟨rfl, rfl, rfl, rfl, rfl, rfl, rfl, rfl⟩,
   fun _ _ => ⟨rfl, rfl⟩,
   fun _ _ => rfl⟩

/-- C10: both spatial searches seed their minimisation with the
sentinel 9999, so a qualifying element whose horizontal offset
`ex0 - lx1` is 9999 or more is never selected: if every qualifying
element sits at offset ≥ 9999 the searches return none, and every
returned value comes from a qualifying element at offset < 9999. -/
theorem c10_sentinel_bound (elements : List Element)
    (label_text required_keyword : List Char) (lb : Box) :
    ((∀ e ∈ elements, qualValue label_text required_keyword lb e = true →
        offsetFrom lb e ≥ 9999) →
      findValueFrom elements label_text required_keyword lb = none) ∧
    (∀ v, findValueFrom elements label_text required_keyword lb = some v →
      ∃ e ∈ elements, qualValue label_text required_keyword lb e = true ∧
        offsetFrom lb e < 9999) ∧
    ((∀ e ∈ elements, qualHard lb e = true → offsetFrom lb e ≥ 9999) →
      hardnessNeighbor elements lb = none) ∧
    (∀ v, hardnessNeighbor elements lb = some v →
      ∃ e ∈ elements, qualHard lb e = true ∧ offsetFrom lb e < 9999) := by
  refine ⟨?_, ?_, ?_, ?_⟩
  · intro h
    rw [findValueFrom_eq, selectBestC_none_iff.mpr
      (fun x hx hcon => absurd (h x hx hcon.1) (not_le.mpr hcon.2))]
  · intro v h
    rw [findValueFrom_eq] at h
    split at h
    next e hsel =>
      obtain ⟨hmem, hq, hf, _⟩ := selectBestC_mem hsel
      exact ⟨e, hmem, hq, hf⟩
    next hsel => exact Option.noConfusion h
  · intro h
    rw [hardnessNeighbor_eq, selectBestC_none_iff.mpr
      (fun x hx hcon => absurd (h x hx hcon.1) (not_le.mpr hcon.2))]
  · intro v h
    rw [hardnessNeighbor_eq] at h
    split at h
    next e hsel =>
      obtain ⟨hmem, hq, hf, _⟩ := selectBestC_mem hsel
      exact ⟨e, hmem, hq, hf⟩
    next hsel => exact Option.noConfusion h

theorem c10_witness :
    findValueFrom (c10Far :: []) sTensile sMpa c10Box = none ∧
      hardnessNeighbor (c10Far :: []) c10Box = none := by
  constructor
  · refine (c10_sentinel_bound (c10Far :: []) sTensile sMpa c10Box).1 ?_
    intro e he _
    have he' : e = c10Far := by simpa using he
    subst he'
    norm_num [offsetFrom, c10Far, c10Box]
  · refine (c10_sentinel_bound (c10Far :: []) sTensile sMpa c10Box).2.2.1 ?_
    intro e he _
    have he' : e = c10Far := by simpa using he
    subst he'
    norm_num [offsetFrom, c10Far, c10Box]

end MTCSpec
